import Mathlib

/-!
Verification of the `text-search` crate's `CountedSet`
(`src/text-search/src/counted_set.rs`).

`CountedSet` is a counted multiset of 64-bit integers.  The Rust code is a
wrapper around the C library `GNETextSearch`'s `tsearch_countedset`, whose
sources are vendored outside this repository; the behaviour of the
`tsearch_countedset_*` primitives is therefore modelled from the spec
(`spec.md`), while the wrapper layer (`insert`, `remove`, `remove_all`,
`clear`, `union`, `intersect`, `minus`, `to_vec`, `clone`, `contains`,
`get_count`, `len`, `is_empty`) is translated directly from the Rust source.

The multiset state is an association list of (key, count) entries with
unique keys and strictly positive counts; key uniqueness and positivity
are stated as the invariant `Wf`, proved to be preserved by every public
operation, not baked into the type.

The Rust wrapper turns the C result code into a panic via
`_ResultExt::expect`; a potential panic is modelled by returning `Option`
(`none` = panic).
-/

namespace TextSearch

/-- An entry of a counted set: a 64-bit integer key together with its count. -/
abbrev Entry : Type := Int × Nat

/-- Keys of an association list of entries. -/
def keysOf (l : List Entry) : List Int := l.map Prod.fst

/-- Count of key `k` in the association list: count of the first entry for
`k`, or `0` when no entry has key `k`. -/
def gcL : List Entry → Int → Nat
  | [], _ => 0
  | e :: rest, k => if e.1 = k then e.2 else gcL rest k

/-- Whether some entry of the association list has key `k`. -/
def keyMem : List Entry → Int → Bool
  | [], _ => false
  | e :: rest, k => if e.1 = k then true else keyMem rest k

/-- Add `c` to the count of key `k`, creating the entry `(k, c)` when no
entry has key `k`. -/
def bumpL : List Entry → Int → Nat → List Entry
  | [], k, c => [(k, c)]
  | e :: rest, k, c =>
    if e.1 = k then (e.1, e.2 + c) :: rest else e :: bumpL rest k c

/-- Delete every entry with key `k`. -/
def removeKeyL : List Entry → Int → List Entry
  | [], _ => []
  | e :: rest, k =>
    if e.1 = k then removeKeyL rest k else e :: removeKeyL rest k

/-- Intersection payload: keep each entry of `l` whose key also occurs in
`other`, adding `other`'s count for the key; drop the rest. -/
def intersectL : List Entry → List Entry → List Entry
  | [], _ => []
  | e :: rest, other =>
    if keyMem other e.1 then
      (e.1, e.2 + gcL other e.1) :: intersectL rest other
    else intersectL rest other

/-- Difference payload: for each entry of `l` whose key occurs in `other`,
subtract `other`'s count; delete the entry when the result would be ≤ 0,
keep the reduced count otherwise.  Entries whose key is absent from
`other` are kept unchanged. -/
def minusL : List Entry → List Entry → List Entry
  | [], _ => []
  | e :: rest, other =>
    if keyMem other e.1 then
      if e.2 ≤ gcL other e.1 then minusL rest other
      else (e.1, e.2 - gcL other e.1) :: minusL rest other
    else e :: minusL rest other

/-- Union payload: for every entry of `other`, add its count to `l`'s count
for that key (creating the entry when absent). -/
def unionL (l : List Entry) (other : List Entry) : List Entry :=
  other.foldl (fun acc e => bumpL acc e.1 e.2) l

/-- Ordering used for extraction: `a` comes before `b` when `a`'s count is
at least `b`'s (descending counts). -/
def countDescRel (a b : Entry) : Prop := b.2 ≤ a.2

instance : DecidableRel countDescRel := fun _ _ => Nat.decLe _ _

instance : IsTotal Entry countDescRel := ⟨fun a b => Nat.le_total b.2 a.2⟩

instance : IsTrans Entry countDescRel :=
  ⟨fun _ _ _ hab hbc => Nat.le_trans hbc hab⟩

/-- The multiset state: an association list of key/count entries.  The
data-model invariant (unique keys, strictly positive counts) is the
predicate `Wf` below. -/
structure CountedSet where
  entries : List Entry

/-- Modelled from the spec (the C sources of `tsearch_countedset` are not
part of this repository): `tsearch_countedset_init` creates an empty
multiset. -/
def tsearch_countedset_init : CountedSet := ⟨[]⟩

/-- Modelled from the spec: `tsearch_countedset_get_count` returns the
distinct-key cardinality (the mapping holds one entry per key). -/
def tsearch_countedset_get_count (s : CountedSet) : Nat := s.entries.length

/-- Modelled from the spec: `tsearch_countedset_get_count_for_int` returns
the current count for the key, or 0 when absent; it is total. -/
def tsearch_countedset_get_count_for_int (s : CountedSet) (k : Int) : Nat :=
  gcL s.entries k

/-- Modelled from the spec: `tsearch_countedset_contains_int` is true iff
the key's count is positive. -/
def tsearch_countedset_contains_int (s : CountedSet) (k : Int) : Bool :=
  decide (0 < gcL s.entries k)

/-- Modelled from the spec: `tsearch_countedset_add_int` increments the
key's count by 1 (creating the entry at count 1 when absent).  It always
succeeds, so the result code is 1. -/
def tsearch_countedset_add_int (s : CountedSet) (k : Int) : CountedSet × Int :=
  (⟨bumpL s.entries k 1⟩, 1)

/-- Modelled from the spec and the comment in `counted_set.rs` (lines
296–298): `tsearch_countedset_remove_int` removes the entry for the key
entirely, regardless of its count (it behaves like `remove_all`).  It
always succeeds, so the result code is 1. -/
def tsearch_countedset_remove_int (s : CountedSet) (k : Int) :
    CountedSet × Int :=
  (⟨removeKeyL s.entries k⟩, 1)

/-- Modelled from the spec: `tsearch_countedset_remove_all_ints` deletes
every entry.  It always succeeds, so the result code is 1. -/
def tsearch_countedset_remove_all_ints (s : CountedSet) : CountedSet × Int :=
  (⟨[]⟩, 1)

/-- Modelled from the spec: `tsearch_countedset_union` adds, for every key
of `o`, `o`'s count to `s`'s count (creating entries when absent).  It
always succeeds, so the result code is 1. -/
def tsearch_countedset_union (s o : CountedSet) : CountedSet × Int :=
  (⟨unionL s.entries o.entries⟩, 1)

/-- Modelled from the spec: `tsearch_countedset_intersect` keeps exactly
the keys of `s` present in `o`, with `s`'s count plus `o`'s count.  It
always succeeds, so the result code is 1. -/
def tsearch_countedset_intersect (s o : CountedSet) : CountedSet × Int :=
  (⟨intersectL s.entries o.entries⟩, 1)

/-- Modelled from the spec: `tsearch_countedset_minus` subtracts `o`'s
counts from `s`'s counts for common keys, deleting a key when the result
would be ≤ 0.  It always succeeds, so the result code is 1. -/
def tsearch_countedset_minus (s o : CountedSet) : CountedSet × Int :=
  (⟨minusL s.entries o.entries⟩, 1)

/-- Modelled from the spec: `tsearch_countedset_copy_ints` produces the
distinct keys ordered by descending count (ties in unspecified order; one
admissible order is produced here by a sort).  It always succeeds, so the
result code is 1. -/
def tsearch_countedset_copy_ints (s : CountedSet) : List Int × Int :=
  ((List.insertionSort countDescRel s.entries).map Prod.fst, 1)

/-- Modelled from the spec: `tsearch_countedset_copy` returns an
independent deep copy, which in a functional model is the value itself. -/
def tsearch_countedset_copy (s : CountedSet) : CountedSet := s

/-- From `counted_set.rs` (`_ResultExt::expect`): result code 1 is success,
anything else panics.  A panic is modelled as `none`. -/
def expectR (r : Int) : Option Unit :=
  match r with
  | 1 => some ()
  | _ => none

namespace CountedSet

/-- `CountedSet::new` from `counted_set.rs`. -/
def new : CountedSet := tsearch_countedset_init

/-- `CountedSet::len` from `counted_set.rs`. -/
def len (s : CountedSet) : Nat := tsearch_countedset_get_count s

/-- `CountedSet::is_empty` from `counted_set.rs`. -/
def is_empty (s : CountedSet) : Bool :=
  tsearch_countedset_get_count s == 0

/-- `CountedSet::clear` from `counted_set.rs`. -/
def clear (s : CountedSet) : Option CountedSet :=
  let p := tsearch_countedset_remove_all_ints s
  match expectR p.2 with
  | none => none
  | some _ => some p.1

/-- `CountedSet::minus` from `counted_set.rs`. -/
def minus (s o : CountedSet) : Option CountedSet :=
  let p := tsearch_countedset_minus s o
  match expectR p.2 with
  | none => none
  | some _ => some p.1

/-- `CountedSet::intersect` from `counted_set.rs`. -/
def intersect (s o : CountedSet) : Option CountedSet :=
  let p := tsearch_countedset_intersect s o
  match expectR p.2 with
  | none => none
  | some _ => some p.1

/-- `CountedSet::union` from `counted_set.rs`. -/
def union (s o : CountedSet) : Option CountedSet :=
  let p := tsearch_countedset_union s o
  match expectR p.2 with
  | none => none
  | some _ => some p.1

/-- `CountedSet::contains` from `counted_set.rs`. -/
def contains (s : CountedSet) (k : Int) : Bool :=
  tsearch_countedset_contains_int s k

/-- `CountedSet::get_count` from `counted_set.rs`. -/
def get_count (s : CountedSet) (k : Int) : Nat :=
  tsearch_countedset_get_count_for_int s k

/-- `CountedSet::insert` from `counted_set.rs`: add the value, then return
the new state together with the resulting count. -/
def insert (s : CountedSet) (k : Int) : Option (CountedSet × Nat) :=
  let p := tsearch_countedset_add_int s k
  match expectR p.2 with
  | none => none
  | some _ => some (p.1, tsearch_countedset_get_count_for_int p.1 k)

/-- The `for _ in 0..new_count` re-insertion loop inside
`CountedSet::remove` (result codes of the adds are discarded, as in the
Rust source). -/
def add_loop : CountedSet → Int → Nat → CountedSet
  | s, _, 0 => s
  | s, k, n + 1 => add_loop (tsearch_countedset_add_int s k).1 k n

/-- `CountedSet::remove` from `counted_set.rs`: when the value is absent
do nothing and return 0; otherwise delete the entry entirely and re-add
the value `before - 1` times, returning `before - 1`. -/
def remove (s : CountedSet) (k : Int) : Option (CountedSet × Nat) :=
  let before := tsearch_countedset_get_count_for_int s k
  if before = 0 then some (s, 0)
  else
    let new_count := before - 1
    let p := tsearch_countedset_remove_int s k
    match expectR p.2 with
    | none => none
    | some _ => some (add_loop p.1 k new_count, new_count)

/-- `CountedSet::remove_all` from `counted_set.rs`: read the prior count,
delete the entry, return whether the prior count was positive. -/
def remove_all (s : CountedSet) (k : Int) : Option (CountedSet × Bool) :=
  let before := tsearch_countedset_get_count_for_int s k
  let p := tsearch_countedset_remove_int s k
  match expectR p.2 with
  | none => none
  | some _ => some (p.1, decide (0 < before))

/-- `CountedSet::to_vec` from `counted_set.rs`. -/
def to_vec (s : CountedSet) : Option (List Int) :=
  let p := tsearch_countedset_copy_ints s
  match expectR p.2 with
  | none => none
  | some _ => some p.1

/-- `Clone::clone` for `CountedSet` from `counted_set.rs`. -/
def clone (s : CountedSet) : CountedSet := tsearch_countedset_copy s

/-- Iterated `insert`, as in the crate's test helper `insert_integers`. -/
def insert_n : CountedSet → Int → Nat → Option CountedSet
  | s, _, 0 => some s
  | s, k, n + 1 =>
    match insert s k with
    | none => none
    | some p => insert_n p.1 k n

end CountedSet

/-- The data-model invariant on entry lists: keys are unique and every
stored count is at least 1. -/
def WfEntries (l : List Entry) : Prop :=
  (keysOf l).Nodup ∧ ∀ e ∈ l, 1 ≤ e.2

/-- The data-model invariant on a counted set. -/
def Wf (s : CountedSet) : Prop := WfEntries s.entries

instance (l : List Entry) : Decidable (WfEntries l) := by
  unfold WfEntries; infer_instance

instance (s : CountedSet) : Decidable (Wf s) := by
  unfold Wf; infer_instance

/-! ### Basic lemmas about the list-level operations -/

theorem keysOf_nil : keysOf ([] : List Entry) = [] := rfl

theorem keysOf_cons (e : Entry) (l : List Entry) :
    keysOf (e :: l) = e.1 :: keysOf l := rfl

theorem gcL_bump_self (l : List Entry) (k : Int) (c : Nat) :
    gcL (bumpL l k c) k = gcL l k + c := by
  induction l with
  | nil => simp [bumpL, gcL]
  | cons e rest ih =>
    by_cases h : e.1 = k
    · simp [bumpL, gcL, h]
    · simp [bumpL, gcL, h, ih]

theorem gcL_bump_ne (l : List Entry) (k : Int) (c : Nat) (u : Int)
    (h : u ≠ k) : gcL (bumpL l k c) u = gcL l u := by
  have hku : ¬(k = u) := fun e => h e.symm
  induction l with
  | nil => simp [bumpL, gcL, hku]
  | cons e rest ih =>
    by_cases he : e.1 = k
    · simp [bumpL, gcL, he, hku, h]
    · by_cases heu : e.1 = u
      · simp [bumpL, gcL, he, heu, hku, h]
      · simp [bumpL, gcL, he, heu, ih]

theorem keyMem_iff_mem_keys (l : List Entry) (k : Int) :
    keyMem l k = true ↔ k ∈ keysOf l := by
  induction l with
  | nil => simp [keyMem, keysOf_nil]
  | cons e rest ih =>
    rw [keysOf_cons]
    by_cases h : e.1 = k
    · simp [keyMem, h]
    · have hke : ¬(k = e.1) := fun x => h x.symm
      simp [keyMem, h, hke, ih]

theorem gcL_eq_zero_of_keyMem_false (l : List Entry) (k : Int)
    (h : keyMem l k = false) : gcL l k = 0 := by
  induction l with
  | nil => simp [gcL]
  | cons e rest ih =>
    by_cases he : e.1 = k
    · simp [keyMem, he] at h
    · simp only [keyMem, he, if_false] at h
      simp [gcL, he, ih h]

theorem keyMem_true_of_gcL_pos (l : List Entry) (k : Int)
    (h : 0 < gcL l k) : keyMem l k = true := by
  by_cases hm : keyMem l k = true
  · exact hm
  · have hz : gcL l k = 0 :=
      gcL_eq_zero_of_keyMem_false l k (by simpa using hm)
    omega

theorem gcL_pos_of_keyMem (l : List Entry) (k : Int)
    (hpos : ∀ e ∈ l, 1 ≤ e.2) (h : keyMem l k = true) : 1 ≤ gcL l k := by
  induction l with
  | nil => simp [keyMem] at h
  | cons e rest ih =>
    by_cases he : e.1 = k
    · have := hpos e (by simp)
      simpa [gcL, he] using this
    · simp only [keyMem, he, if_false] at h
      have := ih (fun x hx => hpos x (by simp [hx])) h
      simpa [gcL, he] using this

theorem keyMem_false_of_gcL_zero (l : List Entry) (k : Int)
    (hpos : ∀ e ∈ l, 1 ≤ e.2) (h : gcL l k = 0) : keyMem l k = false := by
  by_cases hm : keyMem l k = true
  · have := gcL_pos_of_keyMem l k hpos hm
    omega
  · simpa using hm

theorem mem_keysOf_of_mem {l : List Entry} {e : Entry} (h : e ∈ l) :
    e.1 ∈ keysOf l :=
  List.mem_map_of_mem Prod.fst h

theorem gcL_of_mem (l : List Entry) (k : Int) (c : Nat)
    (hnd : (keysOf l).Nodup) (h : (k, c) ∈ l) : gcL l k = c := by
  induction l with
  | nil => simp at h
  | cons e rest ih =>
    rw [keysOf_cons] at hnd
    have hnd0 := List.nodup_cons.mp hnd
    rcases List.mem_cons.mp h with h0 | h0
    · simp [gcL, ← h0]
    · have hkrest : k ∈ keysOf rest := mem_keysOf_of_mem h0
      have he : ¬(e.1 = k) := fun hek => hnd0.1 (hek ▸ hkrest)
      simp [gcL, he, ih hnd0.2 h0]

theorem keyMem_removeKey_self (l : List Entry) (k : Int) :
    keyMem (removeKeyL l k) k = false := by
  induction l with
  | nil => simp [removeKeyL, keyMem]
  | cons e rest ih =>
    by_cases he : e.1 = k
    · simp [removeKeyL, he, ih]
    · simp [removeKeyL, keyMem, he, ih]

theorem gcL_removeKey_self (l : List Entry) (k : Int) :
    gcL (removeKeyL l k) k = 0 :=
  gcL_eq_zero_of_keyMem_false _ _ (keyMem_removeKey_self l k)

theorem removeKeyL_cons_eq {e : Entry} {rest : List Entry} {k : Int}
    (he : e.1 = k) : removeKeyL (e :: rest) k = removeKeyL rest k := by
  simp [removeKeyL, he]

theorem removeKeyL_cons_ne {e : Entry} {rest : List Entry} {k : Int}
    (he : ¬(e.1 = k)) : removeKeyL (e :: rest) k = e :: removeKeyL rest k := by
  simp [removeKeyL, he]

theorem gcL_removeKey_ne (l : List Entry) (k u : Int) (h : u ≠ k) :
    gcL (removeKeyL l k) u = gcL l u := by
  induction l with
  | nil => simp [removeKeyL]
  | cons e rest ih =>
    by_cases he : e.1 = k
    · have heu : ¬(e.1 = u) := by
        rw [he]; exact fun x => h x.symm
      rw [removeKeyL_cons_eq he]
      simp [gcL, heu, ih]
    · rw [removeKeyL_cons_ne he]
      by_cases heu : e.1 = u
      · simp [gcL, heu]
      · simp [gcL, heu, ih]

theorem mem_keys_removeKey (l : List Entry) (k x : Int)
    (h : x ∈ keysOf (removeKeyL l k)) : x ∈ keysOf l := by
  induction l with
  | nil => simpa [removeKeyL, keysOf_nil] using h
  | cons e rest ih =>
    rw [keysOf_cons, List.mem_cons]
    by_cases he : e.1 = k
    · rw [removeKeyL_cons_eq he] at h
      exact Or.inr (ih h)
    · rw [removeKeyL_cons_ne he, keysOf_cons, List.mem_cons] at h
      rcases h with h0 | h0
      · exact Or.inl h0
      · exact Or.inr (ih h0)

theorem wf_removeKey (l : List Entry) (k : Int) (h : WfEntries l) :
    WfEntries (removeKeyL l k) := by
  induction l with
  | nil => simpa [removeKeyL] using h
  | cons e rest ih =>
    obtain ⟨hnd, hpos⟩ := h
    rw [keysOf_cons] at hnd
    have hnd0 := List.nodup_cons.mp hnd
    have ihr := ih ⟨hnd0.2, fun x hx => hpos x (by simp [hx])⟩
    by_cases he : e.1 = k
    · rw [removeKeyL_cons_eq he]
      exact ihr
    · rw [removeKeyL_cons_ne he]
      refine ⟨?_, ?_⟩
      · rw [keysOf_cons, List.nodup_cons]
        exact ⟨fun hc => hnd0.1 (mem_keys_removeKey rest k e.1 hc), ihr.1⟩
      · intro x hx
        rcases List.mem_cons.mp hx with h0 | h0
        · exact h0 ▸ hpos e (by simp)
        · exact ihr.2 x h0

theorem bumpL_cons_eq {e : Entry} {rest : List Entry} {k : Int} {c : Nat}
    (he : e.1 = k) : bumpL (e :: rest) k c = (e.1, e.2 + c) :: rest := by
  simp [bumpL, he]

theorem bumpL_cons_ne {e : Entry} {rest : List Entry} {k : Int} {c : Nat}
    (he : ¬(e.1 = k)) : bumpL (e :: rest) k c = e :: bumpL rest k c := by
  simp [bumpL, he]

theorem mem_keys_bump (l : List Entry) (k : Int) (c : Nat) (x : Int)
    (h : x ∈ keysOf (bumpL l k c)) : x ∈ keysOf l ∨ x = k := by
  induction l with
  | nil =>
    simp only [bumpL, keysOf_cons, keysOf_nil, List.mem_cons] at h
    rcases h with h0 | h0
    · exact Or.inr h0
    · simp at h0
  | cons e rest ih =>
    by_cases he : e.1 = k
    · rw [bumpL_cons_eq he, keysOf_cons, List.mem_cons] at h
      rw [keysOf_cons, List.mem_cons]
      rcases h with h0 | h0
      · exact Or.inl (Or.inl h0)
      · exact Or.inl (Or.inr h0)
    · rw [bumpL_cons_ne he, keysOf_cons, List.mem_cons] at h
      rw [keysOf_cons, List.mem_cons]
      rcases h with h0 | h0
      · exact Or.inl (Or.inl h0)
      · rcases ih h0 with h1 | h1
        · exact Or.inl (Or.inr h1)
        · exact Or.inr h1

theorem wf_bump (l : List Entry) (k : Int) (c : Nat) (hc : 1 ≤ c)
    (h : WfEntries l) : WfEntries (bumpL l k c) := by
  induction l with
  | nil =>
    refine ⟨?_, ?_⟩
    · simp [bumpL, keysOf_cons, keysOf_nil]
    · intro x hx
      simp only [bumpL, List.mem_cons] at hx
      rcases hx with h0 | h0
      · simpa [h0] using hc
      · simp at h0
  | cons e rest ih =>
    obtain ⟨hnd, hpos⟩ := h
    rw [keysOf_cons] at hnd
    have hnd0 := List.nodup_cons.mp hnd
    by_cases he : e.1 = k
    · rw [bumpL_cons_eq he]
      refine ⟨?_, ?_⟩
      · rw [keysOf_cons, List.nodup_cons]
        exact ⟨hnd0.1, hnd0.2⟩
      · intro x hx
        rcases List.mem_cons.mp hx with h0 | h0
        · have := hpos e (by simp)
          simp [h0]; omega
        · exact hpos x (by simp [h0])
    · have ihr := ih ⟨hnd0.2, fun x hx => hpos x (by simp [hx])⟩
      rw [bumpL_cons_ne he]
      refine ⟨?_, ?_⟩
      · rw [keysOf_cons, List.nodup_cons]
        refine ⟨fun hc2 => ?_, ihr.1⟩
        rcases mem_keys_bump rest k c e.1 hc2 with h1 | h1
        · exact hnd0.1 h1
        · exact he h1
      · intro x hx
        rcases List.mem_cons.mp hx with h0 | h0
        · exact h0 ▸ hpos e (by simp)
        · exact ihr.2 x h0

/-! ### Lemmas about union, intersection and difference payloads -/

theorem unionL_nil (l : List Entry) : unionL l [] = l := rfl

theorem unionL_cons (l : List Entry) (e : Entry) (rest : List Entry) :
    unionL l (e :: rest) = unionL (bumpL l e.1 e.2) rest := rfl

theorem gcL_unionL (o : List Entry) (l : List Entry) (k : Int)
    (hnd : (keysOf o).Nodup) : gcL (unionL l o) k = gcL l k + gcL o k := by
  induction o generalizing l with
  | nil => simp [unionL_nil, gcL]
  | cons e rest ih =>
    rw [keysOf_cons] at hnd
    have hnd0 := List.nodup_cons.mp hnd
    rw [unionL_cons]
    by_cases hk : k = e.1
    · have hrest : gcL rest k = 0 := by
        refine gcL_eq_zero_of_keyMem_false rest k ?_
        have : ¬(keyMem rest k = true) := fun hmem =>
          hnd0.1 (hk ▸ (keyMem_iff_mem_keys rest k).mp hmem)
        simpa using this
      rw [ih (bumpL l e.1 e.2) hnd0.2, hrest]
      have hself : gcL (bumpL l e.1 e.2) k = gcL l k + e.2 := by
        rw [hk]; exact gcL_bump_self l e.1 e.2
      rw [hself]
      simp [gcL, hk.symm]
    · rw [ih (bumpL l e.1 e.2) hnd0.2,
        gcL_bump_ne l e.1 e.2 k (fun x => hk x)]
      have : ¬(e.1 = k) := fun x => hk x.symm
      simp [gcL, this]

theorem wf_unionL (o : List Entry) (l : List Entry)
    (hl : WfEntries l) (ho : ∀ e ∈ o, 1 ≤ e.2) : WfEntries (unionL l o) := by
  induction o generalizing l with
  | nil => simpa [unionL_nil] using hl
  | cons e rest ih =>
    rw [unionL_cons]
    exact ih (bumpL l e.1 e.2)
      (wf_bump l e.1 e.2 (ho e (by simp)) hl)
      (fun x hx => ho x (by simp [hx]))

theorem intersectL_cons_mem {e : Entry} {rest other : List Entry}
    (h : keyMem other e.1 = true) :
    intersectL (e :: rest) other =
      (e.1, e.2 + gcL other e.1) :: intersectL rest other := by
  simp [intersectL, h]

theorem intersectL_cons_not_mem {e : Entry} {rest other : List Entry}
    (h : keyMem other e.1 = false) :
    intersectL (e :: rest) other = intersectL rest other := by
  simp [intersectL, h]

theorem keyMem_intersectL_left (l other : List Entry) (k : Int)
    (h : keyMem l k = false) : keyMem (intersectL l other) k = false := by
  induction l with
  | nil => simp [intersectL, keyMem]
  | cons e rest ih =>
    by_cases he : e.1 = k
    · simp [keyMem, he] at h
    · simp only [keyMem, he, if_false] at h
      by_cases hm : keyMem other e.1 = true
      · rw [intersectL_cons_mem hm]
        simp [keyMem, he, ih h]
      · rw [intersectL_cons_not_mem (by simpa using hm)]
        exact ih h

theorem keyMem_intersectL_right (l other : List Entry) (k : Int)
    (h : keyMem other k = false) : keyMem (intersectL l other) k = false := by
  induction l with
  | nil => simp [intersectL, keyMem]
  | cons e rest ih =>
    by_cases hm : keyMem other e.1 = true
    · have he : ¬(e.1 = k) := fun hek => by
        rw [hek] at hm
        rw [hm] at h
        exact Bool.true_eq_false.mp h
      rw [intersectL_cons_mem hm]
      simp [keyMem, he, ih]
    · rw [intersectL_cons_not_mem (by simpa using hm)]
      exact ih

theorem gcL_intersectL_both (l other : List Entry) (k : Int)
    (hl : keyMem l k = true) (ho : keyMem other k = true) :
    gcL (intersectL l other) k = gcL l k + gcL other k := by
  induction l with
  | nil => simp [keyMem] at hl
  | cons e rest ih =>
    by_cases he : e.1 = k
    · rw [intersectL_cons_mem (he ▸ ho)]
      simp [gcL, he]
    · simp only [keyMem, he, if_false] at hl
      by_cases hm : keyMem other e.1 = true
      · rw [intersectL_cons_mem hm]
        simp [gcL, he, ih hl]
      · rw [intersectL_cons_not_mem (by simpa using hm)]
        simp [gcL, he, ih hl]

theorem mem_keys_intersectL (l other : List Entry) (x : Int)
    (h : x ∈ keysOf (intersectL l other)) : x ∈ keysOf l := by
  induction l with
  | nil => simpa [intersectL, keysOf_nil] using h
  | cons e rest ih =>
    rw [keysOf_cons, List.mem_cons]
    by_cases hm : keyMem other e.1 = true
    · rw [intersectL_cons_mem hm, keysOf_cons, List.mem_cons] at h
      rcases h with h0 | h0
      · exact Or.inl h0
      · exact Or.inr (ih h0)
    · rw [intersectL_cons_not_mem (by simpa using hm)] at h
      exact Or.inr (ih h)

theorem wf_intersectL (l other : List Entry) (h : WfEntries l) :
    WfEntries (intersectL l other) := by
  induction l with
  | nil => exact ⟨by simp [intersectL, keysOf_nil], by simp [intersectL]⟩
  | cons e rest ih =>
    obtain ⟨hnd, hpos⟩ := h
    rw [keysOf_cons] at hnd
    have hnd0 := List.nodup_cons.mp hnd
    have ihr := ih ⟨hnd0.2, fun x hx => hpos x (by simp [hx])⟩
    by_cases hm : keyMem other e.1 = true
    · rw [intersectL_cons_mem hm]
      refine ⟨?_, ?_⟩
      · rw [keysOf_cons, List.nodup_cons]
        exact ⟨fun hc => hnd0.1 (mem_keys_intersectL rest other e.1 hc),
          ihr.1⟩
      · intro x hx
        rcases List.mem_cons.mp hx with h0 | h0
        · have := hpos e (by simp)
          simp [h0]; omega
        · exact ihr.2 x h0
    · rw [intersectL_cons_not_mem (by simpa using hm)]
      exact ihr

theorem minusL_cons_del {e : Entry} {rest other : List Entry}
    (hm : keyMem other e.1 = true) (hle : e.2 ≤ gcL other e.1) :
    minusL (e :: rest) other = minusL rest other := by
  simp [minusL, hm, hle]

theorem minusL_cons_keep {e : Entry} {rest other : List Entry}
    (hm : keyMem other e.1 = true) (hgt : ¬(e.2 ≤ gcL other e.1)) :
    minusL (e :: rest) other =
      (e.1, e.2 - gcL other e.1) :: minusL rest other := by
  simp [minusL, hm, hgt]

theorem minusL_cons_skip {e : Entry} {rest other : List Entry}
    (hm : keyMem other e.1 = false) :
    minusL (e :: rest) other = e :: minusL rest other := by
  simp [minusL, hm]

theorem mem_keys_minusL (l other : List Entry) (x : Int)
    (h : x ∈ keysOf (minusL l other)) : x ∈ keysOf l := by
  induction l with
  | nil => simpa [minusL, keysOf_nil] using h
  | cons e rest ih =>
    rw [keysOf_cons, List.mem_cons]
    by_cases hm : keyMem other e.1 = true
    · by_cases hle : e.2 ≤ gcL other e.1
      · rw [minusL_cons_del hm hle] at h
        exact Or.inr (ih h)
      · rw [minusL_cons_keep hm hle, keysOf_cons, List.mem_cons] at h
        rcases h with h0 | h0
        · exact Or.inl h0
        · exact Or.inr (ih h0)
    · rw [minusL_cons_skip (by simpa using hm), keysOf_cons,
        List.mem_cons] at h
      rcases h with h0 | h0
      · exact Or.inl h0
      · exact Or.inr (ih h0)

theorem keyMem_minusL_false (l other : List Entry) (k : Int)
    (h : keyMem l k = false) : keyMem (minusL l other) k = false := by
  by_cases hm : keyMem (minusL l other) k = true
  · have : k ∈ keysOf l :=
      mem_keys_minusL l other k ((keyMem_iff_mem_keys _ k).mp hm)
    have : keyMem l k = true := (keyMem_iff_mem_keys l k).mpr this
    rw [this] at h
    exact absurd h (by simp)
  · simpa using hm

theorem gcL_minusL_absent (l other : List Entry) (k : Int)
    (h : keyMem other k = false) : gcL (minusL l other) k = gcL l k := by
  induction l with
  | nil => simp [minusL]
  | cons e rest ih =>
    by_cases he : e.1 = k
    · rw [minusL_cons_skip (he ▸ h)]
      simp [gcL, he]
    · by_cases hm : keyMem other e.1 = true
      · by_cases hle : e.2 ≤ gcL other e.1
        · rw [minusL_cons_del hm hle]
          simp [gcL, he, ih]
        · rw [minusL_cons_keep hm hle]
          simp [gcL, he, ih]
      · rw [minusL_cons_skip (by simpa using hm)]
        simp [gcL, he, ih]

theorem keyMem_minusL_deleted (l other : List Entry) (k : Int)
    (hnd : (keysOf l).Nodup) (ho : keyMem other k = true)
    (hle : gcL l k ≤ gcL other k) :
    keyMem (minusL l other) k = false := by
  induction l with
  | nil => simp [minusL, keyMem]
  | cons e rest ih =>
    rw [keysOf_cons] at hnd
    have hnd0 := List.nodup_cons.mp hnd
    by_cases he : e.1 = k
    · have hle2 : e.2 ≤ gcL other e.1 := by
        have : gcL (e :: rest) k = e.2 := by simp [gcL, he]
        rw [this] at hle
        rw [he]
        exact hle
      rw [minusL_cons_del (he ▸ ho) hle2]
      refine keyMem_minusL_false rest other k ?_
      have : ¬(keyMem rest k = true) := fun hmem =>
        hnd0.1 (he ▸ (keyMem_iff_mem_keys rest k).mp hmem)
      simpa using this
    · have hle2 : gcL rest k ≤ gcL other k := by
        have : gcL (e :: rest) k = gcL rest k := by simp [gcL, he]
        rw [this] at hle
        exact hle
      have ihr := ih hnd0.2 hle2
      by_cases hm : keyMem other e.1 = true
      · by_cases hlee : e.2 ≤ gcL other e.1
        · rw [minusL_cons_del hm hlee]
          exact ihr
        · rw [minusL_cons_keep hm hlee]
          simp [keyMem, he, ihr]
      · rw [minusL_cons_skip (by simpa using hm)]
        simp [keyMem, he, ihr]

theorem gcL_minusL_retained (l other : List Entry) (k : Int)
    (ho : keyMem other k = true) (hlt : gcL other k < gcL l k) :
    gcL (minusL l other) k = gcL l k - gcL other k := by
  induction l with
  | nil => simp [gcL] at hlt
  | cons e rest ih =>
    by_cases he : e.1 = k
    · have hgt : ¬(e.2 ≤ gcL other e.1) := by
        have : gcL (e :: rest) k = e.2 := by simp [gcL, he]
        rw [this] at hlt
        rw [he]
        omega
      rw [minusL_cons_keep (he ▸ ho) hgt]
      simp [gcL, he]
    · have hlt2 : gcL other k < gcL rest k := by
        have : gcL (e :: rest) k = gcL rest k := by simp [gcL, he]
        rw [this] at hlt
        exact hlt
      have ihr := ih hlt2
      by_cases hm : keyMem other e.1 = true
      · by_cases hlee : e.2 ≤ gcL other e.1
        · rw [minusL_cons_del hm hlee]
          rw [ihr]
          simp [gcL, he]
        · rw [minusL_cons_keep hm hlee]
          simp [gcL, he]
          rw [ihr]
      · rw [minusL_cons_skip (by simpa using hm)]
        simp [gcL, he]
        rw [ihr]

theorem wf_minusL (l other : List Entry) (h : WfEntries l) :
    WfEntries (minusL l other) := by
  induction l with
  | nil => exact ⟨by simp [minusL, keysOf_nil], by simp [minusL]⟩
  | cons e rest ih =>
    obtain ⟨hnd, hpos⟩ := h
    rw [keysOf_cons] at hnd
    have hnd0 := List.nodup_cons.mp hnd
    have ihr := ih ⟨hnd0.2, fun x hx => hpos x (by simp [hx])⟩
    by_cases hm : keyMem other e.1 = true
    · by_cases hle : e.2 ≤ gcL other e.1
      · rw [minusL_cons_del hm hle]
        exact ihr
      · rw [minusL_cons_keep hm hle]
        refine ⟨?_, ?_⟩
        · rw [keysOf_cons, List.nodup_cons]
          exact ⟨fun hc => hnd0.1 (mem_keys_minusL rest other e.1 hc), ihr.1⟩
        · intro x hx
          rcases List.mem_cons.mp hx with h0 | h0
          · simp [h0]; omega
          · exact ihr.2 x h0
    · rw [minusL_cons_skip (by simpa using hm)]
      refine ⟨?_, ?_⟩
      · rw [keysOf_cons, List.nodup_cons]
        exact ⟨fun hc => hnd0.1 (mem_keys_minusL rest other e.1 hc), ihr.1⟩
      · intro x hx
        rcases List.mem_cons.mp hx with h0 | h0
        · exact h0 ▸ hpos e (by simp)
        · exact ihr.2 x h0

/-! ### Unfolding lemmas for the wrapper operations -/

theorem expectR_one : expectR 1 = some () := rfl

theorem insert_eq (s : CountedSet) (k : Int) :
    CountedSet.insert s k =
      some (⟨bumpL s.entries k 1⟩, gcL (bumpL s.entries k 1) k) := rfl

theorem clear_eq (s : CountedSet) :
    CountedSet.clear s = some ⟨[]⟩ := rfl

theorem union_eq (s o : CountedSet) :
    CountedSet.union s o = some ⟨unionL s.entries o.entries⟩ := rfl

theorem intersect_eq (s o : CountedSet) :
    CountedSet.intersect s o = some ⟨intersectL s.entries o.entries⟩ := rfl

theorem minus_eq (s o : CountedSet) :
    CountedSet.minus s o = some ⟨minusL s.entries o.entries⟩ := rfl

theorem remove_all_eq (s : CountedSet) (k : Int) :
    CountedSet.remove_all s k =
      some (⟨removeKeyL s.entries k⟩, decide (0 < gcL s.entries k)) := rfl

theorem to_vec_eq (s : CountedSet) :
    CountedSet.to_vec s =
      some ((List.insertionSort countDescRel s.entries).map Prod.fst) := rfl

theorem get_count_eq (s : CountedSet) (k : Int) :
    CountedSet.get_count s k = gcL s.entries k := rfl

theorem contains_eq (s : CountedSet) (k : Int) :
    CountedSet.contains s k = decide (0 < gcL s.entries k) := rfl

theorem len_eq (s : CountedSet) :
    CountedSet.len s = s.entries.length := rfl

theorem remove_eq_absent (s : CountedSet) (k : Int)
    (h : gcL s.entries k = 0) : CountedSet.remove s k = some (s, 0) := by
  simp [CountedSet.remove, tsearch_countedset_get_count_for_int, h]

theorem remove_eq_present (s : CountedSet) (k : Int)
    (h : ¬(gcL s.entries k = 0)) :
    CountedSet.remove s k =
      some (CountedSet.add_loop ⟨removeKeyL s.entries k⟩ k
          (gcL s.entries k - 1),
        gcL s.entries k - 1) := by
  simp [CountedSet.remove, tsearch_countedset_get_count_for_int, h,
    tsearch_countedset_remove_int, expectR]

theorem gcL_add_loop_self (n : Nat) (s : CountedSet) (k : Int) :
    gcL (CountedSet.add_loop s k n).entries k = gcL s.entries k + n := by
  induction n generalizing s with
  | zero => simp [CountedSet.add_loop]
  | succ m ih =>
    have : CountedSet.add_loop s k (m + 1) =
        CountedSet.add_loop ⟨bumpL s.entries k 1⟩ k m := rfl
    rw [this, ih ⟨bumpL s.entries k 1⟩]
    have := gcL_bump_self s.entries k 1
    simp only [this]
    omega

theorem gcL_add_loop_ne (n : Nat) (s : CountedSet) (k u : Int)
    (h : u ≠ k) :
    gcL (CountedSet.add_loop s k n).entries u = gcL s.entries u := by
  induction n generalizing s with
  | zero => simp [CountedSet.add_loop]
  | succ m ih =>
    have : CountedSet.add_loop s k (m + 1) =
        CountedSet.add_loop ⟨bumpL s.entries k 1⟩ k m := rfl
    rw [this, ih ⟨bumpL s.entries k 1⟩]
    exact gcL_bump_ne s.entries k 1 u h

theorem wf_add_loop (n : Nat) (s : CountedSet) (k : Int) (h : Wf s) :
    Wf (CountedSet.add_loop s k n) := by
  induction n generalizing s with
  | zero => simpa [CountedSet.add_loop] using h
  | succ m ih =>
    have : CountedSet.add_loop s k (m + 1) =
        CountedSet.add_loop ⟨bumpL s.entries k 1⟩ k m := rfl
    rw [this]
    exact ih ⟨bumpL s.entries k 1⟩ (wf_bump s.entries k 1 (by omega) h)

theorem entries_mk (l : List Entry) : (CountedSet.mk l).entries = l := rfl

/-! ### Claim theorems -/

/-- Claim C3: for every multiset and key `k`: if `k` is absent (count 0),
`remove k` changes nothing and returns 0; if `k` is present with count
`c ≥ 1`, `remove k` decrements `k`'s count to `c - 1`, deletes the entry
entirely when `c - 1 = 0` (so `k` becomes absent), and returns `c - 1`. -/
theorem remove_correct (s : CountedSet) (k : Int) :
    (CountedSet.get_count s k = 0 → CountedSet.remove s k = some (s, 0))
    ∧ ∀ c : Nat, CountedSet.get_count s k = c → 1 ≤ c →
      ∃ s2, CountedSet.remove s k = some (s2, c - 1)
        ∧ CountedSet.get_count s2 k = c - 1
        ∧ (c = 1 → CountedSet.contains s2 k = false) := by
  constructor
  · intro h
    exact remove_eq_absent s k (by rwa [get_count_eq] at h)
  · intro c hc h1
    rw [get_count_eq] at hc
    have hne : ¬(gcL s.entries k = 0) := by omega
    have heq := remove_eq_present s k hne
    rw [hc] at heq
    have hgc : CountedSet.get_count
        (CountedSet.add_loop ⟨removeKeyL s.entries k⟩ k (c - 1)) k = c - 1 := by
      rw [get_count_eq, gcL_add_loop_self, entries_mk, gcL_removeKey_self]
      omega
    refine ⟨_, heq, hgc, ?_⟩
    intro hc1
    rw [contains_eq]
    have : gcL (CountedSet.add_loop ⟨removeKeyL s.entries k⟩ k
        (c - 1)).entries k = 0 := by
      rw [← get_count_eq, hgc, hc1]
    simp [this]

/-- Claim C4: `remove_all k` deletes `k`'s entry in a single call
regardless of its count (afterwards `contains k` is false), and returns
true exactly when `k` was present (count > 0) before the call; an
immediately following `remove_all k` returns false. -/
theorem remove_all_correct (s : CountedSet) (k : Int) :
    ∃ s2, CountedSet.remove_all s k
        = some (s2, decide (0 < CountedSet.get_count s k))
      ∧ CountedSet.contains s2 k = false
      ∧ ∃ s3, CountedSet.remove_all s2 k = some (s3, false) := by
  refine ⟨⟨removeKeyL s.entries k⟩, ?_, ?_, ?_⟩
  · rw [remove_all_eq, get_count_eq]
  · rw [contains_eq]
    simp [entries_mk, gcL_removeKey_self]
  · refine ⟨⟨removeKeyL (removeKeyL s.entries k) k⟩, ?_⟩
    rw [remove_all_eq]
    simp [entries_mk, gcL_removeKey_self]

/-- Claim C10: `remove k` leaves the count of every key distinct from `k`
unchanged (even though the implementation deletes `k`'s entry entirely
and re-inserts it count-minus-one times), and the value `remove k`
returns equals `get_count k` evaluated on the resulting multiset. -/
theorem remove_frame (s : CountedSet) (k : Int) :
    ∃ p, CountedSet.remove s k = some p
      ∧ (∀ u, u ≠ k → CountedSet.get_count p.1 u = CountedSet.get_count s u)
      ∧ p.2 = CountedSet.get_count p.1 k := by
  by_cases h : gcL s.entries k = 0
  · refine ⟨(s, 0), remove_eq_absent s k h, fun u _ => rfl, ?_⟩
    rw [get_count_eq]
    exact h.symm
  · refine ⟨(CountedSet.add_loop ⟨removeKeyL s.entries k⟩ k
      (gcL s.entries k - 1), gcL s.entries k - 1),
      remove_eq_present s k h, ?_, ?_⟩
    · intro u hu
      rw [get_count_eq, get_count_eq, gcL_add_loop_ne _ _ _ _ hu,
        entries_mk, gcL_removeKey_ne s.entries k u hu]
    · rw [get_count_eq, gcL_add_loop_self, entries_mk, gcL_removeKey_self]
      omega

/-- Auxiliary: one `insert` on a singleton multiset for the same key. -/
theorem insert_single_step (k : Int) (c : Nat) :
    CountedSet.insert ⟨[(k, c)]⟩ k = some (⟨[(k, c + 1)]⟩, c + 1) := by
  rw [insert_eq]
  simp [entries_mk, bumpL, gcL]

/-- Auxiliary: iterated `insert` on a singleton multiset for the same
key. -/
theorem insert_n_single (k : Int) (m c : Nat) :
    CountedSet.insert_n ⟨[(k, c)]⟩ k m = some ⟨[(k, c + m)]⟩ := by
  induction m generalizing c with
  | zero => simp [CountedSet.insert_n]
  | succ m2 ih =>
    have step : CountedSet.insert_n (⟨[(k, c)]⟩ : CountedSet) k (m2 + 1)
        = CountedSet.insert_n ⟨[(k, c + 1)]⟩ k m2 := by
      simp [CountedSet.insert_n, insert_single_step]
    rw [step, ih (c + 1)]
    have harith : c + 1 + m2 = c + (m2 + 1) := by omega
    rw [harith]

/-- Claim C7: `insert k` increments `k`'s count by 1 (creating the entry
at count 1 if `k` was absent) and returns the resulting count;
consequently a multiset starting empty has `get_count k = n` and
`len = 1` after exactly `n` calls of `insert k`, for every `n ≥ 1`. -/
theorem insert_correct :
    (∀ (s : CountedSet) (k : Int), ∃ s2,
      CountedSet.insert s k = some (s2, CountedSet.get_count s k + 1)
        ∧ CountedSet.get_count s2 k = CountedSet.get_count s k + 1)
    ∧ ∀ (k : Int) (n : Nat), 1 ≤ n → ∃ s2,
      CountedSet.insert_n CountedSet.new k n = some s2
        ∧ CountedSet.get_count s2 k = n ∧ CountedSet.len s2 = 1 := by
  constructor
  · intro s k
    refine ⟨⟨bumpL s.entries k 1⟩, ?_, ?_⟩
    · rw [insert_eq, get_count_eq, gcL_bump_self]
    · rw [get_count_eq, entries_mk, gcL_bump_self, get_count_eq]
  · intro k n h1
    obtain ⟨m, rfl⟩ : ∃ m, n = m + 1 := ⟨n - 1, by omega⟩
    have h0 : CountedSet.insert CountedSet.new k = some (⟨[(k, 1)]⟩, 1) := by
      rw [insert_eq]
      simp [CountedSet.new, tsearch_countedset_init, bumpL, gcL]
    have step : CountedSet.insert_n CountedSet.new k (m + 1)
        = CountedSet.insert_n ⟨[(k, 1)]⟩ k m := by
      simp [CountedSet.insert_n, h0]
    refine ⟨⟨[(k, 1 + m)]⟩, ?_, ?_, ?_⟩
    · rw [step, insert_n_single]
    · rw [get_count_eq, entries_mk]
      simp [gcL]
      omega
    · rw [len_eq, entries_mk]
      rfl

/-- Claim C5: after `union`, for every key, `self`'s resulting count
equals `self`'s prior count (default 0) plus `other`'s count (default 0);
keys present only in `self` keep their prior counts.  `other` is passed
read-only, so in this functional model it is unaffected by
construction. -/
theorem union_correct (s o : CountedSet) (ho : Wf o) :
    ∃ s2, CountedSet.union s o = some s2 ∧
      ∀ k, CountedSet.get_count s2 k
        = CountedSet.get_count s k + CountedSet.get_count o k := by
  refine ⟨⟨unionL s.entries o.entries⟩, union_eq s o, ?_⟩
  intro k
  rw [get_count_eq, get_count_eq, get_count_eq, entries_mk]
  exact gcL_unionL o.entries s.entries k ho.1

/-- Claim C1: after `intersect`, every key present in both operands
beforehand is retained in `self` with count equal to `self`'s prior count
plus `other`'s count (summed, not the minimum); every key of `self`
absent from `other` is deleted from `self`; and no key present only in
`other` is ever added to `self`. -/
theorem intersect_correct (s o : CountedSet) (hs : Wf s) (ho : Wf o) :
    ∃ s2, CountedSet.intersect s o = some s2 ∧
      ∀ k,
        (1 ≤ CountedSet.get_count s k → 1 ≤ CountedSet.get_count o k →
          CountedSet.get_count s2 k
            = CountedSet.get_count s k + CountedSet.get_count o k)
        ∧ (CountedSet.get_count o k = 0 → CountedSet.contains s2 k = false)
        ∧ (CountedSet.get_count s k = 0 →
            CountedSet.contains s2 k = false) := by
  refine ⟨⟨intersectL s.entries o.entries⟩, intersect_eq s o, ?_⟩
  intro k
  simp only [get_count_eq, contains_eq, entries_mk]
  refine ⟨?_, ?_, ?_⟩
  · intro h1 h2
    exact gcL_intersectL_both s.entries o.entries k
      (keyMem_true_of_gcL_pos s.entries k (by omega))
      (keyMem_true_of_gcL_pos o.entries k (by omega))
  · intro h2
    have hko : keyMem o.entries k = false :=
      keyMem_false_of_gcL_zero o.entries k ho.2 h2
    have : gcL (intersectL s.entries o.entries) k = 0 :=
      gcL_eq_zero_of_keyMem_false _ _
        (keyMem_intersectL_right s.entries o.entries k hko)
    simp [this]
  · intro h2
    have hks : keyMem s.entries k = false :=
      keyMem_false_of_gcL_zero s.entries k hs.2 h2
    have : gcL (intersectL s.entries o.entries) k = 0 :=
      gcL_eq_zero_of_keyMem_false _ _
        (keyMem_intersectL_left s.entries o.entries k hks)
    simp [this]

/-- Claim C6: after `minus`, every key of `self` also present in `other`
has `other`'s count subtracted from its count, the key being deleted when
the result is ≤ 0 and retained with the reduced count when the result is
positive; keys of `self` absent from `other` are unchanged; keys only in
`other` have no effect; and every stored count in the result is ≥ 1 (in
particular none is negative or zero; counts are natural numbers). -/
theorem minus_correct (s o : CountedSet) (hs : Wf s) (ho : Wf o) :
    ∃ s2, CountedSet.minus s o = some s2
      ∧ (∀ k, 1 ≤ CountedSet.get_count o k →
          CountedSet.get_count s k ≤ CountedSet.get_count o k →
          CountedSet.contains s2 k = false)
      ∧ (∀ k, 1 ≤ CountedSet.get_count o k →
          CountedSet.get_count o k < CountedSet.get_count s k →
          CountedSet.get_count s2 k
            = CountedSet.get_count s k - CountedSet.get_count o k)
      ∧ (∀ k, CountedSet.get_count o k = 0 →
          CountedSet.get_count s2 k = CountedSet.get_count s k)
      ∧ (∀ k, CountedSet.get_count s k = 0 →
          CountedSet.contains s2 k = false)
      ∧ (∀ e ∈ s2.entries, 1 ≤ e.2) := by
  refine ⟨⟨minusL s.entries o.entries⟩, minus_eq s o, ?_, ?_, ?_, ?_, ?_⟩
  · intro k h1 h2
    simp only [get_count_eq] at h1 h2
    rw [contains_eq, entries_mk]
    have : keyMem (minusL s.entries o.entries) k = false :=
      keyMem_minusL_deleted s.entries o.entries k hs.1
        (keyMem_true_of_gcL_pos o.entries k (by omega)) h2
    simp [gcL_eq_zero_of_keyMem_false _ _ this]
  · intro k h1 h2
    simp only [get_count_eq] at h1 h2 ⊢
    rw [entries_mk]
    exact gcL_minusL_retained s.entries o.entries k
      (keyMem_true_of_gcL_pos o.entries k (by omega)) h2
  · intro k h2
    simp only [get_count_eq] at h2 ⊢
    rw [entries_mk]
    exact gcL_minusL_absent s.entries o.entries k
      (keyMem_false_of_gcL_zero o.entries k ho.2 h2)
  · intro k h2
    simp only [get_count_eq] at h2
    rw [contains_eq, entries_mk]
    have : keyMem (minusL s.entries o.entries) k = false :=
      keyMem_minusL_false s.entries o.entries k
        (keyMem_false_of_gcL_zero s.entries k hs.2 h2)
    simp [gcL_eq_zero_of_keyMem_false _ _ this]
  · intro e he
    rw [entries_mk] at he
    exact (wf_minusL s.entries o.entries hs).2 e he

/-- Claim C2: after every public operation (`insert`, `remove`,
`remove_all`, `clear`, `union`, `intersect`, `minus`, `clone`, `new`) the
invariant holds: keys are unique and every stored key has count ≥ 1
(`Wf`); and `get_count` is total: it returns the stored count when the key
is present and 0 when the key is absent, never failing. -/
theorem invariant_wf :
    Wf CountedSet.new
    ∧ (∀ (s : CountedSet) (k : Int), Wf s →
        ∃ p, CountedSet.insert s k = some p ∧ Wf p.1)
    ∧ (∀ (s : CountedSet) (k : Int), Wf s →
        ∃ p, CountedSet.remove s k = some p ∧ Wf p.1)
    ∧ (∀ (s : CountedSet) (k : Int), Wf s →
        ∃ p, CountedSet.remove_all s k = some p ∧ Wf p.1)
    ∧ (∀ s : CountedSet, Wf s →
        ∃ s2, CountedSet.clear s = some s2 ∧ Wf s2)
    ∧ (∀ s o : CountedSet, Wf s → Wf o →
        ∃ s2, CountedSet.union s o = some s2 ∧ Wf s2)
    ∧ (∀ s o : CountedSet, Wf s → Wf o →
        ∃ s2, CountedSet.intersect s o = some s2 ∧ Wf s2)
    ∧ (∀ s o : CountedSet, Wf s → Wf o →
        ∃ s2, CountedSet.minus s o = some s2 ∧ Wf s2)
    ∧ (∀ s : CountedSet, Wf s → Wf (CountedSet.clone s))
    ∧ (∀ (s : CountedSet) (k : Int) (c : Nat), Wf s →
        (k, c) ∈ s.entries → CountedSet.get_count s k = c)
    ∧ (∀ (s : CountedSet) (k : Int), k ∉ keysOf s.entries →
        CountedSet.get_count s k = 0) := by
  refine ⟨?_, ?_, ?_, ?_, ?_, ?_, ?_, ?_, ?_, ?_, ?_⟩
  · exact ⟨by simp [CountedSet.new, tsearch_countedset_init, keysOf_nil],
      by simp [CountedSet.new, tsearch_countedset_init]⟩
  · intro s k hs
    exact ⟨_, insert_eq s k, wf_bump s.entries k 1 (by omega) hs⟩
  · intro s k hs
    by_cases h : gcL s.entries k = 0
    · exact ⟨(s, 0), remove_eq_absent s k h, hs⟩
    · exact ⟨_, remove_eq_present s k h,
        wf_add_loop _ _ _ (wf_removeKey s.entries k hs)⟩
  · intro s k hs
    exact ⟨_, remove_all_eq s k, wf_removeKey s.entries k hs⟩
  · intro s _hs
    exact ⟨⟨[]⟩, clear_eq s, by simp [Wf, WfEntries, keysOf_nil]⟩
  · intro s o hs ho
    exact ⟨_, union_eq s o, wf_unionL o.entries s.entries hs ho.2⟩
  · intro s o hs _ho
    exact ⟨_, intersect_eq s o, wf_intersectL s.entries o.entries hs⟩
  · intro s o hs _ho
    exact ⟨_, minus_eq s o, wf_minusL s.entries o.entries hs⟩
  · intro s hs
    exact hs
  · intro s k c hs hmem
    rw [get_count_eq]
    exact gcL_of_mem s.entries k c hs.1 hmem
  · intro s k hk
    rw [get_count_eq]
    refine gcL_eq_zero_of_keyMem_false s.entries k ?_
    have : ¬(keyMem s.entries k = true) := fun hm =>
      hk ((keyMem_iff_mem_keys s.entries k).mp hm)
    simpa using this

/-- Claim C8: `to_vec` returns a sequence containing exactly the distinct
keys currently stored, each appearing exactly once with no omissions and
no duplicates, ordered by non-increasing count (ties among keys of equal
count in any order; the model produces one admissible order). -/
theorem to_vec_correct (s : CountedSet) (hs : Wf s) :
    ∃ v, CountedSet.to_vec s = some v
      ∧ v.Perm (keysOf s.entries)
      ∧ v.Nodup
      ∧ v.Pairwise (fun a b =>
          CountedSet.get_count s b ≤ CountedSet.get_count s a) := by
  have hperm : List.Perm
      ((List.insertionSort countDescRel s.entries).map Prod.fst)
      (keysOf s.entries) :=
    (List.perm_insertionSort countDescRel s.entries).map Prod.fst
  refine ⟨_, to_vec_eq s, hperm, hperm.symm.nodup hs.1, ?_⟩
  have hsorted :
      (List.insertionSort countDescRel s.entries).Pairwise countDescRel :=
    List.sorted_insertionSort countDescRel s.entries
  rw [List.pairwise_map]
  refine hsorted.imp_of_mem ?_
  intro a b ha _hb hab
  have ha2 : a ∈ s.entries :=
    (List.perm_insertionSort countDescRel s.entries).mem_iff.mp ha
  have hb2 : b ∈ s.entries :=
    (List.perm_insertionSort countDescRel s.entries).mem_iff.mp _hb
  rw [get_count_eq, get_count_eq,
    gcL_of_mem s.entries a.1 a.2 hs.1 ha2,
    gcL_of_mem s.entries b.1 b.2 hs.1 hb2]
  exact hab

/-- Claim C9: every public operation of `CountedSet` is total on its
documented input domain: for every representable key and every multiset
state, no operation panics (in the model, the `none` branch standing for
the panic in `_ResultExt::expect` is never produced, and the unchecked
re-insertions inside `remove` always succeed). -/
theorem operations_total :
    (∀ (s : CountedSet) (k : Int), (CountedSet.insert s k).isSome = true)
    ∧ (∀ (s : CountedSet) (k : Int), (CountedSet.remove s k).isSome = true)
    ∧ (∀ (s : CountedSet) (k : Int),
        (CountedSet.remove_all s k).isSome = true)
    ∧ (∀ s : CountedSet, (CountedSet.clear s).isSome = true)
    ∧ (∀ s o : CountedSet, (CountedSet.union s o).isSome = true)
    ∧ (∀ s o : CountedSet, (CountedSet.intersect s o).isSome = true)
    ∧ (∀ s o : CountedSet, (CountedSet.minus s o).isSome = true)
    ∧ (∀ s : CountedSet, (CountedSet.to_vec s).isSome = true) := by
  refine ⟨?_, ?_, ?_, ?_, ?_, ?_, ?_, ?_⟩
  · intro s k
    rw [insert_eq]
    rfl
  · intro s k
    by_cases h : gcL s.entries k = 0
    · rw [remove_eq_absent s k h]
      rfl
    · rw [remove_eq_present s k h]
      rfl
  · intro s k
    rw [remove_all_eq]
    rfl
  · intro s
    rw [clear_eq]
    rfl
  · intro s o
    rw [union_eq]
    rfl
  · intro s o
    rw [intersect_eq]
    rfl
  · intro s o
    rw [minus_eq]
    rfl
  · intro s
    rw [to_vec_eq]
    rfl

/-! ### Witnesses: the claim theorems applied at concrete inputs -/

theorem remove_correct_witness :
    (CountedSet.get_count (⟨[(7, 2)]⟩ : CountedSet) 7 = 2 ∧ 1 ≤ 2)
    ∧ ∃ s2, CountedSet.remove ⟨[(7, 2)]⟩ 7 = some (s2, 2 - 1)
      ∧ CountedSet.get_count s2 7 = 2 - 1
      ∧ (2 = 1 → CountedSet.contains s2 7 = false) :=
  ⟨⟨by decide, by decide⟩,
    (remove_correct ⟨[(7, 2)]⟩ 7).2 2 (by decide) (by decide)⟩

theorem remove_frame_witness :
    (5 : Int) ≠ 1
    ∧ ∃ p, CountedSet.remove ⟨[(1, 2), (5, 3)]⟩ 1 = some p
      ∧ CountedSet.get_count p.1 5
          = CountedSet.get_count ⟨[(1, 2), (5, 3)]⟩ 5
      ∧ p.2 = CountedSet.get_count p.1 1 := by
  refine ⟨by decide, ?_⟩
  obtain ⟨p, h1, h2, h3⟩ := remove_frame ⟨[(1, 2), (5, 3)]⟩ 1
  exact ⟨p, h1, h2 5 (by decide), h3⟩

theorem insert_correct_witness :
    (1 : Nat) ≤ 3
    ∧ ∃ s2, CountedSet.insert_n CountedSet.new 9 3 = some s2
      ∧ CountedSet.get_count s2 9 = 3 ∧ CountedSet.len s2 = 1 :=
  ⟨by decide, insert_correct.2 9 3 (by decide)⟩

theorem union_correct_witness :
    Wf (⟨[(4, 2)]⟩ : CountedSet)
    ∧ ∃ s2, CountedSet.union ⟨[(1, 1)]⟩ ⟨[(4, 2)]⟩ = some s2 ∧
      ∀ k, CountedSet.get_count s2 k
        = CountedSet.get_count ⟨[(1, 1)]⟩ k
          + CountedSet.get_count ⟨[(4, 2)]⟩ k :=
  ⟨by decide, union_correct ⟨[(1, 1)]⟩ ⟨[(4, 2)]⟩ (by decide)⟩

theorem intersect_correct_witness :
    Wf (⟨[(1, 3), (2, 1), (3, 1)]⟩ : CountedSet)
    ∧ Wf (⟨[(1, 2), (2, 1), (4, 1)]⟩ : CountedSet)
    ∧ ∃ s2, CountedSet.intersect ⟨[(1, 3), (2, 1), (3, 1)]⟩
          ⟨[(1, 2), (2, 1), (4, 1)]⟩ = some s2 ∧
      ∀ k,
        (1 ≤ CountedSet.get_count ⟨[(1, 3), (2, 1), (3, 1)]⟩ k →
          1 ≤ CountedSet.get_count ⟨[(1, 2), (2, 1), (4, 1)]⟩ k →
          CountedSet.get_count s2 k
            = CountedSet.get_count ⟨[(1, 3), (2, 1), (3, 1)]⟩ k
              + CountedSet.get_count ⟨[(1, 2), (2, 1), (4, 1)]⟩ k)
        ∧ (CountedSet.get_count ⟨[(1, 2), (2, 1), (4, 1)]⟩ k = 0 →
            CountedSet.contains s2 k = false)
        ∧ (CountedSet.get_count ⟨[(1, 3), (2, 1), (3, 1)]⟩ k = 0 →
            CountedSet.contains s2 k = false) :=
  ⟨by decide, by decide,
    intersect_correct ⟨[(1, 3), (2, 1), (3, 1)]⟩ ⟨[(1, 2), (2, 1), (4, 1)]⟩
      (by decide) (by decide)⟩

theorem minus_correct_witness :
    Wf (⟨[(1, 3), (2, 1)]⟩ : CountedSet)
    ∧ Wf (⟨[(1, 2), (2, 1)]⟩ : CountedSet)
    ∧ ∃ s2, CountedSet.minus ⟨[(1, 3), (2, 1)]⟩ ⟨[(1, 2), (2, 1)]⟩ = some s2
      ∧ (∀ k, 1 ≤ CountedSet.get_count ⟨[(1, 2), (2, 1)]⟩ k →
          CountedSet.get_count ⟨[(1, 3), (2, 1)]⟩ k
            ≤ CountedSet.get_count ⟨[(1, 2), (2, 1)]⟩ k →
          CountedSet.contains s2 k = false)
      ∧ (∀ k, 1 ≤ CountedSet.get_count ⟨[(1, 2), (2, 1)]⟩ k →
          CountedSet.get_count ⟨[(1, 2), (2, 1)]⟩ k
            < CountedSet.get_count ⟨[(1, 3), (2, 1)]⟩ k →
          CountedSet.get_count s2 k
            = CountedSet.get_count ⟨[(1, 3), (2, 1)]⟩ k
              - CountedSet.get_count ⟨[(1, 2), (2, 1)]⟩ k)
      ∧ (∀ k, CountedSet.get_count ⟨[(1, 2), (2, 1)]⟩ k = 0 →
          CountedSet.get_count s2 k
            = CountedSet.get_count ⟨[(1, 3), (2, 1)]⟩ k)
      ∧ (∀ k, CountedSet.get_count ⟨[(1, 3), (2, 1)]⟩ k = 0 →
          CountedSet.contains s2 k = false)
      ∧ (∀ e ∈ s2.entries, 1 ≤ e.2) :=
  ⟨by decide, by decide,
    minus_correct ⟨[(1, 3), (2, 1)]⟩ ⟨[(1, 2), (2, 1)]⟩
      (by decide) (by decide)⟩

theorem invariant_wf_witness :
    Wf (⟨[(1, 2), (2, 1)]⟩ : CountedSet)
    ∧ ∃ p, CountedSet.remove ⟨[(1, 2), (2, 1)]⟩ 1 = some p ∧ Wf p.1 :=
  ⟨by decide, invariant_wf.2.2.1 ⟨[(1, 2), (2, 1)]⟩ 1 (by decide)⟩

theorem to_vec_correct_witness :
    Wf (⟨[(1, 2), (5, 3)]⟩ : CountedSet)
    ∧ ∃ v, CountedSet.to_vec ⟨[(1, 2), (5, 3)]⟩ = some v
      ∧ v.Perm (keysOf (⟨[(1, 2), (5, 3)]⟩ : CountedSet).entries)
      ∧ v.Nodup
      ∧ v.Pairwise (fun a b =>
          CountedSet.get_count ⟨[(1, 2), (5, 3)]⟩ b
            ≤ CountedSet.get_count ⟨[(1, 2), (5, 3)]⟩ a) :=
  ⟨by decide, to_vec_correct ⟨[(1, 2), (5, 3)]⟩ (by decide)⟩

end TextSearch
